import Mathlib

/-
Verification development for the Meeting-insight repository.

The Python sources are shallowly embedded: SQLite tables become lists of
rows, TEXT cells become `List Char`, JSON values become the `PyVal` family,
and the library calls that the repository delegates to (TextBlob, sklearn
LDA, the remote LLM endpoints, ffmpeg) are modelled by explicit parameters
or by functions that mirror their documented input/output contract.
-/

namespace MeetingInsight

/-- Characters of a SQLite TEXT value or Python string. -/
abbrev Text := List Char

/- Python/JSON values as stored in the meeting record fields.
A mutual inductive family: `PyVal` is a JSON-serializable Python value
(numeric values are modelled as integers), `PyList` a Python list of such
values and `PyDict` a string-keyed Python dict. -/
mutual
inductive PyVal : Type where
  | nullV : PyVal
  | boolV : Bool → PyVal
  | intV : Int → PyVal
  | strV : Text → PyVal
  | listV : PyList → PyVal
  | dictV : PyDict → PyVal

inductive PyList : Type where
  | nil : PyList
  | cons : PyVal → PyList → PyList

inductive PyDict : Type where
  | nil : PyDict
  | cons : Text → PyVal → PyDict → PyDict
end

deriving instance DecidableEq for PyVal

deriving instance DecidableEq for PyList

deriving instance DecidableEq for PyDict

/-- Python truthiness of a `PyVal`: `None`, `False`, `0`, `""`, `[]` and
`\x7b\x7d` are falsy, everything else is truthy.  This is the test applied by
`json.dumps(x) if x else None` in `save_meeting_data`. -/
def pyTruthy : PyVal → Bool
  | .nullV => false
  | .boolV b => b
  | .intV n => n != 0
  | .strV s => !s.isEmpty
  | .listV .nil => false
  | .listV (.cons _ _) => true
  | .dictV .nil => false
  | .dictV (.cons _ _ _) => true

/-- Decimal digit character for a digit value below ten. -/
def digitCh (d : Nat) : Char := Char.ofNat (48 + d)

/-- Decimal representation of a natural number, most significant digit
first, as produced by Python's `json.dumps` for a non-negative int. -/
def natDump (n : Nat) : Text :=
  if n = 0 then ['0'] else (Nat.digits 10 n).reverse.map digitCh

/-- Decimal representation of an integer (leading minus sign when
negative). -/
def intDump : Int → Text
  | .ofNat n => natDump n
  | .negSucc m => '-' :: natDump (m + 1)

/-- JSON string-body escaping as in `json.dumps`: quote and backslash are
escaped with a backslash.  (Python additionally escapes control and
non-ASCII characters; those extra escapes only change the concrete bytes,
not the round-trip behaviour modelled here.) -/
def escString : Text → Text
  | [] => []
  | c :: cs =>
    if c = '"' ∨ c = '\\' then '\\' :: c :: escString cs
    else c :: escString cs

/- Serialization of a Python value to JSON text, mirroring `json.dumps`
with its default separators (", " between items, ": " after keys). -/
mutual
def pyDumps : PyVal → Text
  | .nullV => ['n', 'u', 'l', 'l']
  | .boolV true => ['t', 'r', 'u', 'e']
  | .boolV false => ['f', 'a', 'l', 's', 'e']
  | .intV n => intDump n
  | .strV s => '"' :: escString s ++ ['"']
  | .listV .nil => ['[', ']']
  | .listV (.cons x xs) => '[' :: (pyDumps x ++ pyDumpsElems xs)
  | .dictV .nil => ['\x7b', '\x7d']
  | .dictV (.cons k v kvs) =>
    '\x7b' :: ('"' :: escString k ++ ['"', ':', ' '] ++ pyDumps v ++ pyDumpsEntries kvs)

/-- Serialization of the remaining elements of a non-empty list, each
preceded by ", ", followed by the closing bracket. -/
def pyDumpsElems : PyList → Text
  | .nil => [']']
  | .cons x xs => ',' :: ' ' :: (pyDumps x ++ pyDumpsElems xs)

/-- Serialization of the remaining entries of a non-empty dict, each
preceded by ", ", followed by the closing brace. -/
def pyDumpsEntries : PyDict → Text
  | .nil => ['\x7d']
  | .cons k v kvs =>
    ',' :: ' ' :: ('"' :: escString k ++ ['"', ':', ' '] ++ pyDumps v ++ pyDumpsEntries kvs)
end

/-- Parse the body of a JSON string up to the closing quote, undoing
`escString`; the flag records that the previous character was an
unconsumed escaping backslash. -/
def parseStrAux : Bool → Text → Option (Text × Text)
  | _, [] => none
  | true, c :: r => (parseStrAux false r).map (fun p => (c :: p.1, p.2))
  | false, c :: r =>
    if c = '\\' then parseStrAux true r
    else if c = '"' then some ([], r)
    else (parseStrAux false r).map (fun p => (c :: p.1, p.2))

/-- Parse the body of a JSON string up to the closing quote. -/
def parseStr : Text → Option (Text × Text) := parseStrAux false

/-- Split a leading run of decimal digits off a text, returning the digit
values most significant first. -/
def digitRun : Text → (List Nat × Text)
  | [] => ([], [])
  | c :: r =>
    if c.isDigit then
      let p := digitRun r
      ((c.toNat - 48) :: p.1, p.2)
    else ([], c :: r)

/-- Numeric value of a digit list, most significant first. -/
def natOfRun (ds : List Nat) : Nat := ds.foldl (fun a d => 10 * a + d) 0

/-- Consume an exact sequence of literal characters. -/
def expectChars : Text → Text → Option Text
  | [], s => some s
  | _ :: _, [] => none
  | l :: ls, c :: r => if c = l then expectChars ls r else none

/- Recursive-descent JSON parser (model of `json.loads`), with explicit
fuel bounding the nesting depth; it accepts exactly the output format
of `pyDumps`. -/
mutual
def parseVal : Nat → Text → Option (PyVal × Text)
  | 0, _ => none
  | _ + 1, [] => none
  | fuel + 1, c :: r =>
    if c = 'n' then (expectChars ['u', 'l', 'l'] r).map (fun r2 => (.nullV, r2))
    else if c = 't' then (expectChars ['r', 'u', 'e'] r).map (fun r2 => (.boolV true, r2))
    else if c = 'f' then (expectChars ['a', 'l', 's', 'e'] r).map (fun r2 => (.boolV false, r2))
    else if c = '"' then (parseStr r).map (fun p => (.strV p.1, p.2))
    else if c = '-' then
      match digitRun r with
      | ([], _) => none
      | (d :: ds, rest) => some (.intV (-(natOfRun (d :: ds) : Int)), rest)
    else if c = '[' then
      match r with
      | ']' :: r2 => some (.listV .nil, r2)
      | _ => (parseElems fuel r).map (fun p => (.listV p.1, p.2))
    else if c = '\x7b' then
      match r with
      | '\x7d' :: r2 => some (.dictV .nil, r2)
      | _ => (parseEntries fuel r).map (fun p => (.dictV p.1, p.2))
    else if c.isDigit then
      match digitRun (c :: r) with
      | ([], _) => none
      | (d :: ds, rest) => some (.intV (natOfRun (d :: ds) : Int), rest)
    else none

def parseElems : Nat → Text → Option (PyList × Text)
  | 0, _ => none
  | fuel + 1, s =>
    match parseVal fuel s with
    | none => none
    | some (v, rest) =>
      match rest with
      | ']' :: r2 => some (.cons v .nil, r2)
      | ',' :: ' ' :: r2 =>
        match parseElems fuel r2 with
        | none => none
        | some (vs, rest2) => some (.cons v vs, rest2)
      | _ => none

def parseEntries : Nat → Text → Option (PyDict × Text)
  | 0, _ => none
  | fuel + 1, s =>
    match s with
    | '"' :: r =>
      match parseStr r with
      | none => none
      | some (k, rest) =>
        match rest with
        | ':' :: ' ' :: r2 =>
          match parseVal fuel r2 with
          | none => none
          | some (v, rest2) =>
            match rest2 with
            | '\x7d' :: r3 => some (.cons k v .nil, r3)
            | ',' :: ' ' :: r3 =>
              match parseEntries fuel r3 with
              | none => none
              | some (kvs, rest3) => some (.cons k v kvs, rest3)
            | _ => none
        | _ => none
    | _ => none
end

/-- Model of `json.loads` on a whole text: parse one value and require the
input to be fully consumed. -/
def jsonLoads (s : Text) : Option PyVal :=
  match parseVal (2 * s.length + 1) s with
  | some (v, []) => some v
  | _ => none

/-- Test that a text does not start with a decimal digit (so a preceding
number literal cannot be extended by it). -/
def noDigitHead : Text → Bool
  | [] => true
  | c :: _ => !c.isDigit

/- Structural size of a value, used as a fuel bound for the parser. -/
mutual
def pySize : PyVal → Nat
  | .nullV => 1
  | .boolV _ => 1
  | .intV _ => 1
  | .strV _ => 1
  | .listV xs => 1 + pyListSize xs
  | .dictV kvs => 1 + pyDictSize kvs

def pyListSize : PyList → Nat
  | .nil => 1
  | .cons x xs => 1 + pySize x + pyListSize xs

def pyDictSize : PyDict → Nat
  | .nil => 1
  | .cons _ v kvs => 1 + pySize v + pyDictSize kvs
end

/-
Persistence store: src/database.py.  The `meetings` table is a list of
rows in rowid (insertion) order; TEXT columns holding serialized JSON are
`Option Text` (`none` is SQL NULL).
-/

/-- One row of the `meetings` table. -/
structure MeetingRow where
  id : Nat
  filename : Text
  upload_date : Text
  transcription : Option Text
  summary : Option Text
  sentiment : Option Text
  topics : Option Text
  speakers : Option Text
  knowledge_graph : Option Text
  file_size : Int
  duration : Rat

deriving DecidableEq

/-- The `meetings` table, in rowid order. -/
abbrev Store := List MeetingRow

/-- TEXT cell written for one structured field by `save_meeting_data`:
`json.dumps(x) if x else None`. -/
def dumpCell (v : PyVal) : Option Text :=
  if pyTruthy v then some (pyDumps v) else none

/-- AUTOINCREMENT id for the next insert: larger than every id present. -/
def nextId (store : Store) : Nat :=
  (store.map (fun r => r.id)).foldr max 0 + 1

/-- Model of `save_meeting_data` (success path; on a storage error the
Python function returns None and inserts nothing): inserts one row with
each structured field serialized, or NULL when the argument is falsy, and
returns the fresh id.  `now` stands for the `datetime.now()` timestamp
string. -/
def save_meeting_data (filename : Text)
    (transcription summary sentiment topics speakers knowledge_graph : PyVal)
    (file_size : Int) (duration : Rat) (now : Text) (store : Store) :
    Nat × Store :=
  let i := nextId store
  let row : MeetingRow :=
    { id := i, filename := filename, upload_date := now,
      transcription := dumpCell transcription, summary := dumpCell summary,
      sentiment := dumpCell sentiment, topics := dumpCell topics,
      speakers := dumpCell speakers, knowledge_graph := dumpCell knowledge_graph,
      file_size := file_size, duration := duration }
  (i, store ++ [row])

/-- Reading one TEXT cell back, as in the row-to-dict conversions:
`json.loads(cell) if cell else None`; `none` means the read raised. -/
def readCell : Option Text → Option PyVal
  | none => some .nullV
  | some s => if s.isEmpty then some .nullV else jsonLoads s

/-- The Python-dict view of a row built by `get_meeting_by_id`,
`get_all_meetings` and `search_meetings`. -/
structure MeetingView where
  id : Nat
  filename : Text
  upload_date : Text
  transcription : PyVal
  summary : PyVal
  sentiment : PyVal
  topics : PyVal
  speakers : PyVal
  knowledge_graph : PyVal
  file_size : Int
  duration : Rat

deriving DecidableEq

/-- Conversion of one row to its dict view; `none` when deserializing any
cell raises (the enclosing Python function then takes its except path). -/
def rowToDict (r : MeetingRow) : Option MeetingView :=
  match readCell r.transcription, readCell r.summary, readCell r.sentiment,
        readCell r.topics, readCell r.speakers, readCell r.knowledge_graph with
  | some t, some su, some se, some tp, some sp, some kg =>
    some { id := r.id, filename := r.filename, upload_date := r.upload_date,
           transcription := t, summary := su, sentiment := se, topics := tp,
           speakers := sp, knowledge_graph := kg,
           file_size := r.file_size, duration := r.duration }
  | _, _, _, _, _, _ => none

/-- Model of `get_meeting_by_id`: first row with the id (SQLite
`fetchone`), converted to a dict; None when absent or on error. -/
def get_meeting_by_id (meeting_id : Nat) (store : Store) : Option MeetingView :=
  match store.find? (fun r => r.id == meeting_id) with
  | some r => rowToDict r
  | none => none

/-- Byte-wise text order used by SQLite to compare TEXT values. -/
def textLe : Text → Text → Bool
  | [], _ => true
  | _ :: _, [] => false
  | a :: as, b :: bs =>
    if a.toNat < b.toNat then true
    else if b.toNat < a.toNat then false
    else textLe as bs

/-- Insert a row into a list kept in descending `upload_date` order. -/
def insertByDate (r : MeetingRow) : Store → Store
  | [] => [r]
  | x :: xs =>
    if textLe x.upload_date r.upload_date then r :: x :: xs
    else x :: insertByDate r xs

/-- Sort rows by `upload_date` descending (the `ORDER BY upload_date DESC`
of the SELECT statements). -/
def sortByDateDesc : Store → Store
  | [] => []
  | x :: xs => insertByDate x (sortByDateDesc xs)

/-- Model of `get_all_meetings`: every row, newest first, as dict views;
if any row fails to deserialize the whole call returns `[]`. -/
def get_all_meetings (store : Store) : List MeetingView :=
  ((sortByDateDesc store).mapM rowToDict).getD []

/-- Model of `delete_meeting`.  `storageError` stands for the condition
under which the SQLite calls raise (the except path): then it reports
failure and changes nothing.  Otherwise the DELETE removes every row with
the id and the function returns True, whether or not any row existed. -/
def delete_meeting (storageError : Bool) (meeting_id : Nat) (store : Store) :
    Bool × Store :=
  if storageError then (false, store)
  else (true, store.filter (fun r => r.id ≠ meeting_id))

/-
SQLite LIKE, as used by `search_meetings` with the pattern
`'%' + query + '%'`: `%` matches any character sequence, `_` any single
character, and ordinary characters compare ASCII-case-insensitively.
-/

/-- SQLite LIKE case folding: ASCII upper-case letters fold to lower
case, all other characters are compared as such. -/
def foldCase (c : Char) : Char :=
  if 'A' ≤ c ∧ c ≤ 'Z' then Char.ofNat (c.toNat + 32) else c

/-- Case folding applied to a whole text. -/
def foldText (s : Text) : Text := s.map foldCase

/-- LIKE pattern matching with explicit fuel (each step consumes a
pattern or text character, so the wrapper's fuel always suffices). -/
def likeAux : Nat → Text → Text → Bool
  | 0, _, _ => false
  | _ + 1, [], t => t.isEmpty
  | fuel + 1, p :: ps, t =>
    if p = '%' then
      likeAux fuel ps t ||
        (match t with
         | [] => false
         | _ :: ts => likeAux fuel (p :: ps) ts)
    else
      match t with
      | [] => false
      | c :: ts =>
        if p = '_' then likeAux fuel ps ts
        else (foldCase p == foldCase c) && likeAux fuel ps ts

/-- SQLite `text LIKE pattern`. -/
def sqliteLike (pattern s : Text) : Bool :=
  likeAux (pattern.length + s.length + 1) pattern s

/-- Whether a row is selected by the WHERE clause of `search_meetings`:
`filename LIKE ? OR transcription LIKE ? OR summary LIKE ?` with the
pattern `'%' + query + '%'`; a NULL column never matches. -/
def rowMatches (query : Text) (r : MeetingRow) : Bool :=
  let pat := '%' :: (query ++ ['%'])
  sqliteLike pat r.filename ||
    (match r.transcription with | none => false | some s => sqliteLike pat s) ||
    (match r.summary with | none => false | some s => sqliteLike pat s)

/-- The rows selected and ordered by the SELECT of `search_meetings`. -/
def searchRows (query : Text) (store : Store) : Store :=
  sortByDateDesc (store.filter (rowMatches query))

/-- Model of `search_meetings`: the selected rows, newest first, as dict
views; if any selected row fails to deserialize the call returns `[]`. -/
def search_meetings (query : Text) (store : Store) : List MeetingView :=
  ((searchRows query store).mapM rowToDict).getD []

/-
Specification-side substring predicates, used to state what the search
claims say.
-/

/-- Whether `n` occurs at the very start of `h` (character-exact). -/
def leadEq : Text → Text → Bool
  | [], _ => true
  | _ :: _, [] => false
  | a :: as, b :: bs => (a == b) && leadEq as bs

/-- Whether `n` occurs contiguously anywhere inside `h`
(character-exact substring containment). -/
def containsText (n : Text) : Text → Bool
  | [] => n.isEmpty
  | c :: t => leadEq n (c :: t) || containsText n t

/-- A query without LIKE metacharacters. -/
def noWildcard (q : Text) : Bool :=
  q.all (fun c => !(c == '%') && !(c == '_'))

/-
Sentiment stage: `analyze_sentiment` in src/ai_analyzer.py.  The TextBlob
lexical score is a library value computed from the text, modelled by the
`polarity` and `subjectivity` parameters; the remote chat-completion call
is modelled by a `RemoteOutcome` parameter, with `json.loads` on its
content modelled by `jsonLoads`.
-/

/-- Conversion of a string literal to the `Text` character list. -/
def txt (s : String) : Text := s.data

/-- Outcome of one remote chat-completion call: the request raised, or it
returned a message whose content is a possibly-absent string. -/
inductive RemoteOutcome where
  | raiseE : RemoteOutcome
  | ok : Option Text → RemoteOutcome

/-- Lexical sentiment label computed from the TextBlob polarity at the top
of `analyze_sentiment`. -/
def sentiment_label (polarity : Rat) : Text :=
  if polarity > 1/10 then txt "Positive"
  else if polarity < -(1/10) then txt "Negative"
  else txt "Neutral"

/-- The TextBlob part of the sentiment result. -/
structure TextBlobScore where
  polarity : Rat
  subjectivity : Rat
  label : Text

deriving DecidableEq

/-- The value returned by `analyze_sentiment` on success. -/
structure SentimentResult where
  textblob : TextBlobScore
  ai_analysis : PyVal

deriving DecidableEq

/-- Model of `analyze_sentiment`.  The whole body sits in one try/except
returning None, so an exception in the remote call or in `json.loads`
discards the already-computed lexical score; only an empty content string
degrades to an empty `ai_analysis`. -/
def analyze_sentiment (polarity subjectivity : Rat) (remote : RemoteOutcome) :
    Option SentimentResult :=
  let label := sentiment_label polarity
  match remote with
  | .raiseE => none
  | .ok none => some { textblob := ⟨polarity, subjectivity, label⟩, ai_analysis := .dictV .nil }
  | .ok (some content) =>
    if content.isEmpty then
      some { textblob := ⟨polarity, subjectivity, label⟩, ai_analysis := .dictV .nil }
    else
      match jsonLoads content with
      | none => none
      | some v => some { textblob := ⟨polarity, subjectivity, label⟩, ai_analysis := v }

/-
Topic stage: `extract_topics` in src/ai_analyzer.py.  The TF-IDF
vectorizer and the LDA decomposition are scikit-learn calls; their outputs
(the fitted feature names and the component weight matrix) are parameters,
and the loop that builds the topic dicts from them is modelled below.
-/

/-- One topic dict produced by `extract_topics`. -/
structure Topic where
  id : Nat
  keywords : List Text
  weight : Rat

deriving DecidableEq

/-- Insert an index into an index list kept ascending by weight. -/
def insertAsc (w : List Rat) (i : Nat) : List Nat → List Nat
  | [] => [i]
  | j :: js => if w.getD i 0 ≤ w.getD j 0 then i :: j :: js else j :: insertAsc w i js

/-- Indices of a weight list sorted by ascending weight
(`numpy.argsort`). -/
def argsortAsc (w : List Rat) : List Nat :=
  (List.range w.length).foldr (insertAsc w) []

/-- The last `n` entries of a list (`l[-n:]`). -/
def takeLastN (n : Nat) (l : List Nat) : List Nat := l.drop (l.length - n)

/-- Maximum entry of a weight list (`numpy.max`; the list is nonempty
whenever the vectorizer fitted at least one term). -/
def pyMax (l : List Rat) : Rat :=
  match l with
  | [] => 0
  | x :: xs => xs.foldl max x

/-- Model of the topic-building loop of `extract_topics`: for each LDA
component, the indices of the ten largest weights in descending order give
the candidate keywords, of which the first five are kept, and the weight
is the component maximum. -/
def extract_topics (featureNames : List Text) (components : List (List Rat)) :
    List Topic :=
  components.enum.map (fun p =>
    let topic := p.2
    let top10 := (takeLastN 10 (argsortAsc topic)).reverse
    let top_features := top10.map (fun i => featureNames.getD i [])
    { id := p.1, keywords := top_features.take 5, weight := pyMax topic })

/-
Speaker stage: `identify_speakers` in src/ai_analyzer.py.
-/

/-- The speakers result dict. -/
structure SpeakersResult where
  estimated_speakers : Nat
  speaker_segments : List (Text × Text)
  confidence : Rat

deriving DecidableEq

/-- Model of `identify_speakers`.  The guard is
`'segments' in transcription_data and transcription_data['segments']`;
`segments = none` models a missing key.  When segment data is present the
code builds a prompt and calls `client.chat.completions.create`, but the
name `client` is not defined anywhere in the module, so the call raises
NameError and the except handler returns the same canned dict as the
no-segments branch. -/
def identify_speakers (transcription_text : Text) (segments : Option (List PyVal)) :
    SpeakersResult :=
  match segments with
  | some (_ :: _) =>
    { estimated_speakers := 1, speaker_segments := [], confidence := 1/10 }
  | _ =>
    { estimated_speakers := 1, speaker_segments := [], confidence := 1/10 }

/-
Audio normalizer: src/audio_processor.py.  A file is its detected MIME
type together with the audio properties relevant to the canonical-format
claim; ffmpeg is modelled by its documented effect under the fixed
arguments `-acodec pcm_s16le -ar 16000 -ac 1`.
-/

/-- An audio/video file as far as normalization is concerned. -/
structure AudioFile where
  mime : Option Text
  channels : Nat
  bitsPerSample : Nat
  sampleRate : Nat

deriving DecidableEq

/-- The MIME allowlist of `process_audio_file`. -/
def supported_types : List Text :=
  [txt "audio/mpeg", txt "audio/wav", txt "audio/mp4", txt "audio/x-wav",
   txt "video/mp4", txt "video/quicktime", txt "video/x-msvideo"]

/-- Model of `convert_to_wav`: on success ffmpeg writes a mono 16-bit
16 kHz WAV; `convertOk` is False when ffmpeg exits nonzero. -/
def convert_to_wav (convertOk : Bool) : Option AudioFile :=
  if convertOk then
    some { mime := some (txt "audio/wav"), channels := 1, bitsPerSample := 16,
           sampleRate := 16000 }
  else none

/-- Model of `process_audio_file`: reject undetected or unlisted MIME
types; convert unless the detected type is exactly `audio/wav`; return the
uploaded file unchanged when it is. -/
def process_audio_file (convertOk : Bool) (f : AudioFile) : Option AudioFile :=
  match f.mime with
  | none => none
  | some m =>
    if m ∉ supported_types then none
    else if leadEq (txt "video/") m || m ≠ txt "audio/wav" then
      convert_to_wav convertOk
    else some f

/-
Upload pipeline: `process_meeting_file` in src/file_upload.py.  Each stage
function's outcome is a parameter (each catches its own errors and returns
a sentinel).  The result is the store after the call together with whether
the scratch WAV file still exists when the function returns.
-/

/-- Model of `process_meeting_file` for the stages that decide persistence
and scratch-file cleanup.  `audioOk` is whether `process_audio_file`
returned a path (creating the scratch WAV); `transcription` and `summary`
are the results of their stages (None aborts after `os.unlink`);
sentiment/topics/speakers/graph results never abort.  The save itself is
`save_meeting_data` on the success path. -/
def process_meeting_file (audioOk : Bool)
    (transcription summary : Option PyVal) (sentiment : Option PyVal)
    (topics speakers knowledge_graph : PyVal)
    (filename : Text) (file_size : Int) (duration : Rat) (now : Text)
    (store : Store) : Store × Bool :=
  if !audioOk then (store, false)
  else
    match transcription with
    | none => (store, false)
    | some tr =>
      match summary with
      | none => (store, false)
      | some su =>
        let sent := match sentiment with | none => PyVal.nullV | some sv => sv
        let saved := save_meeting_data filename tr su sent topics speakers
          knowledge_graph file_size duration now store
        (saved.2, false)

/-
Supporting lemmas for the claim theorems.
-/

/-- The value written/read for one structured field: the saved value when
truthy, Python None otherwise. -/
def pyOrNone (v : PyVal) : PyVal := if pyTruthy v then v else .nullV

/-- The selection predicate exactly as the specification words it: the
query occurs as a case-sensitive substring of the filename, the serialized
transcript, or the serialized summary. -/
def spec_case_sensitive_match (query : Text) (r : MeetingRow) : Bool :=
  containsText query r.filename ||
    (match r.transcription with | none => false | some s => containsText query s) ||
    (match r.summary with | none => false | some s => containsText query s)

/-
Theorems.
-/

theorem pySize_pos (v : PyVal) : 1 ≤ pySize v := by
  cases v <;> simp [pySize] <;> omega

theorem pyListSize_pos (xs : PyList) : 1 ≤ pyListSize xs := by
  cases xs <;> simp [pyListSize] <;> omega

theorem pyDictSize_pos (kvs : PyDict) : 1 ≤ pyDictSize kvs := by
  cases kvs <;> simp [pyDictSize] <;> omega

theorem digitCh_isDigit {d : Nat} (h : d < 10) : (digitCh d).isDigit = true := by
  interval_cases d <;> decide

theorem digitCh_toNat {d : Nat} (h : d < 10) : (digitCh d).toNat - 48 = d := by
  interval_cases d <;> decide

theorem isDigit_ne {c x : Char} (h : c.isDigit = true) (hx : x.isDigit = false) : c ≠ x := by
  intro e; rw [e, hx] at h; cases h

theorem digitRun_map_append {ds : List Nat} (h : ∀ d ∈ ds, d < 10) {rest : Text}
    (hrest : noDigitHead rest = true) :
    digitRun (ds.map digitCh ++ rest) = (ds, rest) := by
  induction ds with
  | nil =>
    cases rest with
    | nil => rfl
    | cons c r =>
      simp only [noDigitHead, Bool.not_eq_true'] at hrest
      simp [digitRun, hrest]
  | cons d ds ih =>
    have hd : d < 10 := h d (by simp)
    have hds : ∀ x ∈ ds, x < 10 := fun x hx => h x (by simp [hx])
    simp [digitRun, digitCh_isDigit hd, digitCh_toNat hd, ih hds]

theorem foldl_reverse_ofDigits (L : List Nat) (acc : Nat) :
    List.foldl (fun a d => 10 * a + d) acc L.reverse = acc * 10 ^ L.length + Nat.ofDigits 10 L := by
  induction L generalizing acc with
  | nil => simp
  | cons x xs ih =>
    simp only [List.reverse_cons, List.foldl_append, List.foldl_cons, List.foldl_nil,
      Nat.ofDigits_cons, ih, List.length_cons, pow_succ]
    push_cast
    ring

/-- Parsing a serialized natural number followed by a non-digit recovers
the number. -/
theorem natDump_parse (n : Nat) {rest : Text} (hrest : noDigitHead rest = true) :
    ∃ d ds, digitRun (natDump n ++ rest) = (d :: ds, rest) ∧ natOfRun (d :: ds) = n := by
  by_cases h0 : n = 0
  · subst h0
    refine ⟨0, [], ?_, rfl⟩
    have : natDump 0 ++ rest = List.map digitCh [0] ++ rest := by simp [natDump, digitCh]
    rw [this, digitRun_map_append (by simp) hrest]
  · have hL : Nat.digits 10 n ≠ [] := Nat.digits_ne_nil_iff_ne_zero.mpr h0
    have hlt : ∀ d ∈ (Nat.digits 10 n).reverse, d < 10 := by
      intro d hd
      exact Nat.digits_lt_base (by norm_num) (List.mem_reverse.mp hd)
    have hdump : natDump n ++ rest = ((Nat.digits 10 n).reverse).map digitCh ++ rest := by
      simp [natDump, h0]
    obtain ⟨d, ds, hds⟩ : ∃ d ds, (Nat.digits 10 n).reverse = d :: ds := by
      cases hrev : (Nat.digits 10 n).reverse with
      | nil => exact absurd (by simpa using congrArg List.reverse hrev) hL
      | cons d ds => exact ⟨d, ds, rfl⟩
    refine ⟨d, ds, ?_, ?_⟩
    · rw [hdump, digitRun_map_append hlt hrest, hds]
    · have : natOfRun ((Nat.digits 10 n).reverse) = n := by
        unfold natOfRun
        rw [foldl_reverse_ofDigits]
        simpa using Nat.ofDigits_digits 10 n
      rw [← hds, this]

/-- Every character of a serialized natural number is a digit. -/
theorem natDump_all_digits (n : Nat) : ∀ c ∈ natDump n, c.isDigit = true := by
  intro c hc
  by_cases h0 : n = 0
  · subst h0; simp [natDump] at hc; subst hc; decide
  · simp only [natDump, h0, if_false] at hc
    obtain ⟨d, hd, rfl⟩ := List.mem_map.mp hc
    exact digitCh_isDigit (Nat.digits_lt_base (by norm_num) (List.mem_reverse.mp hd))

theorem natDump_ne_nil (n : Nat) : natDump n ≠ [] := by
  by_cases h0 : n = 0
  · subst h0; simp [natDump]
  · simp only [natDump, h0, if_false]
    intro h
    have := congrArg List.length h
    simp [Nat.digits_ne_nil_iff_ne_zero.mpr h0] at this

/-- First character of any serialized value; it is never a closing
bracket. -/
theorem pyDumps_head (v : PyVal) :
    ∃ c t, pyDumps v = c :: t ∧ c ≠ ']' := by
  cases v with
  | nullV => exact ⟨'n', _, rfl, by decide⟩
  | boolV b =>
    cases b with
    | false => exact ⟨'f', _, rfl, by decide⟩
    | true => exact ⟨'t', _, rfl, by decide⟩
  | intV n =>
    cases n with
    | ofNat m =>
      cases hm : natDump m with
      | nil => exact absurd hm (natDump_ne_nil m)
      | cons c t =>
        refine ⟨c, t, by simp [pyDumps, intDump, hm], ?_⟩
        exact isDigit_ne (natDump_all_digits m c (by rw [hm]; simp)) (by decide)
    | negSucc m => exact ⟨'-', _, rfl, by decide⟩
  | strV s => exact ⟨'"', _, rfl, by decide⟩
  | listV xs =>
    cases xs with
    | nil => exact ⟨'[', _, rfl, by decide⟩
    | cons x t => exact ⟨'[', _, rfl, by decide⟩
  | dictV kvs =>
    cases kvs with
    | nil => exact ⟨'\x7b', _, rfl, by decide⟩
    | cons k v t => exact ⟨'\x7b', _, rfl, by decide⟩

/-- Parsing an escaped string body followed by a closing quote recovers the
original string. -/
theorem parseStr_esc (s : Text) (rest : Text) :
    parseStr (escString s ++ '"' :: rest) = some (s, rest) := by
  unfold parseStr
  induction s with
  | nil => simp [escString, parseStrAux]
  | cons c cs ih =>
    by_cases h : c = '"' ∨ c = '\\'
    · simp [escString, h, parseStrAux, ih]
    · push_neg at h
      simp [escString, h, parseStrAux, ih, h.1, h.2]

/- Sizes are bounded by twice the serialized length, so the fuel used by
`jsonLoads` suffices. -/
mutual
theorem pySize_le_dumps (v : PyVal) : pySize v ≤ 2 * (pyDumps v).length := by
  cases v with
  | nullV => simp [pySize, pyDumps]
  | boolV b => cases b <;> simp [pySize, pyDumps]
  | intV n =>
    have : pyDumps (.intV n) ≠ [] := by
      cases n with
      | ofNat m => simpa [pyDumps, intDump] using natDump_ne_nil m
      | negSucc m => simp [pyDumps, intDump]
    have : 1 ≤ (pyDumps (.intV n)).length := List.length_pos.mpr this
    simp only [pySize]
    omega
  | strV s => simp [pySize, pyDumps]; omega
  | listV xs =>
    cases xs with
    | nil => simp [pySize, pyListSize, pyDumps]
    | cons x t =>
      have h1 := pySize_le_dumps x
      have h2 := pyListSize_le_dumps t
      simp only [pySize, pyListSize, pyDumps, List.length_cons, List.length_append]
      omega
  | dictV kvs =>
    cases kvs with
    | nil => simp [pySize, pyDictSize, pyDumps]
    | cons k v t =>
      have h1 := pySize_le_dumps v
      have h2 := pyDictSize_le_dumps t
      simp only [pySize, pyDictSize, pyDumps, List.length_cons, List.length_append]
      omega

theorem pyListSize_le_dumps (xs : PyList) : pyListSize xs + 1 ≤ 2 * (pyDumpsElems xs).length := by
  cases xs with
  | nil => simp [pyListSize, pyDumpsElems]
  | cons x t =>
    have h1 := pySize_le_dumps x
    have h2 := pyListSize_le_dumps t
    simp only [pyListSize, pyDumpsElems, List.length_cons, List.length_append]
    omega

theorem pyDictSize_le_dumps (kvs : PyDict) : pyDictSize kvs + 1 ≤ 2 * (pyDumpsEntries kvs).length := by
  cases kvs with
  | nil => simp [pyDictSize, pyDumpsEntries]
  | cons k v t =>
    have h1 := pySize_le_dumps v
    have h2 := pyDictSize_le_dumps t
    simp only [pyDictSize, pyDumpsEntries, List.length_cons, List.length_append]
    omega
end

theorem noDigitHead_elems (xs : PyList) (rest : Text) :
    noDigitHead (pyDumpsElems xs ++ rest) = true := by
  cases xs <;> simp [pyDumpsElems, noDigitHead] <;> decide

theorem noDigitHead_entries (kvs : PyDict) (rest : Text) :
    noDigitHead (pyDumpsEntries kvs ++ rest) = true := by
  cases kvs <;> simp [pyDumpsEntries, noDigitHead] <;> decide

/- Dispatch lemmas: how `parseVal` reacts to each possible first
character. -/

theorem parseVal_quote (f : Nat) (r : Text) :
    parseVal (f + 1) ('"' :: r) = (parseStr r).map (fun p => (.strV p.1, p.2)) := by
  simp only [parseVal]
  rw [if_neg (by decide), if_neg (by decide), if_neg (by decide)]
  simp

theorem parseVal_minus (f : Nat) (r : Text) :
    parseVal (f + 1) ('-' :: r) =
      (match digitRun r with
       | ([], _) => none
       | (d :: ds, rest) => some (.intV (-(natOfRun (d :: ds) : Int)), rest)) := by
  simp only [parseVal]
  rw [if_neg (by decide), if_neg (by decide), if_neg (by decide), if_neg (by decide)]
  simp

theorem parseVal_lbracket (f : Nat) (r : Text) :
    parseVal (f + 1) ('[' :: r) =
      (match r with
       | ']' :: r2 => some (.listV .nil, r2)
       | _ => (parseElems f r).map (fun p => (.listV p.1, p.2))) := by
  simp only [parseVal]
  rw [if_neg (by decide), if_neg (by decide), if_neg (by decide), if_neg (by decide),
    if_neg (by decide)]
  rfl

theorem parseVal_lbrace (f : Nat) (r : Text) :
    parseVal (f + 1) ('\x7b' :: r) =
      (match r with
       | '\x7d' :: r2 => some (.dictV .nil, r2)
       | _ => (parseEntries f r).map (fun p => (.dictV p.1, p.2))) := by
  simp only [parseVal]
  rw [if_neg (by decide), if_neg (by decide), if_neg (by decide), if_neg (by decide),
    if_neg (by decide), if_neg (by decide)]
  rfl

theorem parseVal_digit (f : Nat) {c : Char} (r : Text) (hc : c.isDigit = true) :
    parseVal (f + 1) (c :: r) =
      (match digitRun (c :: r) with
       | ([], _) => none
       | (d :: ds, rest) => some (.intV (natOfRun (d :: ds) : Int), rest)) := by
  simp only [parseVal]
  rw [if_neg (isDigit_ne hc (by decide)), if_neg (isDigit_ne hc (by decide)),
    if_neg (isDigit_ne hc (by decide)), if_neg (isDigit_ne hc (by decide)),
    if_neg (isDigit_ne hc (by decide)), if_neg (isDigit_ne hc (by decide)),
    if_neg (isDigit_ne hc (by decide)), if_pos hc]

/-- Soundness of the parser on serializer output, at every sufficient fuel:
parsing a dumped value (with a non-digit continuation) recovers the value,
and likewise for the element and entry continuations of lists and dicts. -/
theorem parse_dumps_all (fuel : Nat) :
    (∀ (v : PyVal) (rest : Text), pySize v ≤ fuel → noDigitHead rest = true →
      parseVal fuel (pyDumps v ++ rest) = some (v, rest)) ∧
    (∀ (x : PyVal) (xs : PyList) (rest : Text), pySize x + pyListSize xs ≤ fuel →
      parseElems fuel (pyDumps x ++ (pyDumpsElems xs ++ rest)) = some (.cons x xs, rest)) ∧
    (∀ (k : Text) (v : PyVal) (kvs : PyDict) (rest : Text), pySize v + pyDictSize kvs ≤ fuel →
      parseEntries fuel
          ('"' :: (escString k ++ ('"' :: ':' :: ' ' :: (pyDumps v ++ (pyDumpsEntries kvs ++ rest)))))
        = some (.cons k v kvs, rest)) := by
  induction fuel using Nat.strong_induction_on with
  | _ fuel IH =>
  match fuel with
  | 0 =>
    refine ⟨fun v rest h _ => absurd h ?_, fun x xs rest h => absurd h ?_,
      fun k v kvs rest h => absurd h ?_⟩
    · have := pySize_pos v; omega
    · have := pySize_pos x; have := pyListSize_pos xs; omega
    · have := pySize_pos v; have := pyDictSize_pos kvs; omega
  | f + 1 =>
    have IHf := IH f (Nat.lt_succ_self f)
    refine ⟨?_, ?_, ?_⟩
    · -- parseVal on a dumped value
      intro v rest hsz hrest
      cases v with
      | nullV => simp [pyDumps, parseVal, expectChars]
      | boolV b => cases b <;> simp [pyDumps, parseVal, expectChars]
      | strV s =>
        simp only [pyDumps, List.cons_append, List.append_assoc, List.singleton_append]
        simp [parseVal, parseStr_esc]
      | intV n =>
        cases n with
        | ofNat m =>
          obtain ⟨c, t, hct⟩ : ∃ c t, natDump m = c :: t := by
            cases hm : natDump m with
            | nil => exact absurd hm (natDump_ne_nil m)
            | cons c t => exact ⟨c, t, rfl⟩
          have hc : c.isDigit = true := natDump_all_digits m c (by rw [hct]; simp)
          obtain ⟨d, ds, hrun, hval⟩ := natDump_parse m hrest
          have hinput : pyDumps (.intV (.ofNat m)) ++ rest = c :: (t ++ rest) := by
            simp [pyDumps, intDump, hct]
          rw [hinput, parseVal_digit f (t ++ rest) hc]
          have hback : c :: (t ++ rest) = natDump m ++ rest := by simp [hct]
          rw [hback, hrun]
          simp [hval]
        | negSucc m =>
          obtain ⟨d, ds, hrun, hval⟩ := natDump_parse (m + 1) hrest
          simp only [pyDumps, intDump, List.cons_append]
          rw [parseVal_minus f (natDump (m + 1) ++ rest), hrun]
          simp only [hval, Option.some.injEq, Prod.mk.injEq, PyVal.intV.injEq, and_true,
            Int.negSucc_eq]
          omega
      | listV xs =>
        cases xs with
        | nil => simp [pyDumps, parseVal]
        | cons x t =>
          obtain ⟨c, ct, hct, hcne⟩ := pyDumps_head x
          have hB := IHf.2.1 x t rest (by
            have := pySize_pos x; have := pyListSize_pos t
            simp only [pySize, pyListSize] at hsz; omega)
          simp only [pyDumps, List.cons_append, List.append_assoc]
          rw [parseVal_lbracket, hct]
          simp only [List.cons_append]
          split
          · next r2 heq =>
            exfalso
            injection heq with h1 _
            exact hcne h1
          · rw [← List.cons_append, ← hct, hB]
            rfl
      | dictV kvs =>
        cases kvs with
        | nil => simp [pyDumps, parseVal]
        | cons k v t =>
          have hC := IHf.2.2 k v t rest (by
            have := pySize_pos v; have := pyDictSize_pos t
            simp only [pySize, pyDictSize] at hsz; omega)
          simp only [pyDumps, List.cons_append, List.append_assoc]
          rw [parseVal_lbrace]
          split
          · next r2 heq =>
            exfalso
            injection heq with h1 _
            exact absurd h1 (by decide)
          · simp only [List.cons_append, List.singleton_append, List.append_assoc,
              List.nil_append] at hC ⊢
            rw [hC]
            rfl
    · -- parseElems on a dumped first element and element continuation
      intro x xs rest hsz
      have hA := (IHf).1 x (pyDumpsElems xs ++ rest) (by
        have := pyListSize_pos xs; omega) (noDigitHead_elems xs rest)
      simp only [parseElems]
      rw [hA]
      cases xs with
      | nil => simp [pyDumpsElems]
      | cons y ys =>
        have hB := IHf.2.1 y ys rest (by
          have := pySize_pos x
          simp only [pyListSize] at hsz; omega)
        simp only [pyDumpsElems, List.cons_append, List.append_assoc]
        rw [hB]
    · -- parseEntries on a dumped first entry and entry continuation
      intro k v kvs rest hsz
      have hA := (IHf).1 v (pyDumpsEntries kvs ++ rest) (by
        have := pyDictSize_pos kvs; omega) (noDigitHead_entries kvs rest)
      simp only [parseEntries]
      rw [parseStr_esc]
      simp only [List.append_assoc] at hA ⊢
      rw [hA]
      cases kvs with
      | nil => simp [pyDumpsEntries]
      | cons k2 v2 t2 =>
        have hC := IHf.2.2 k2 v2 t2 rest (by
          have := pySize_pos v
          simp only [pyDictSize] at hsz; omega)
        simp only [pyDumpsEntries, List.cons_append, List.append_assoc]
        simp only [List.cons_append, List.singleton_append, List.append_assoc,
          List.nil_append] at hC ⊢
        rw [hC]

/-- Round trip of the serializer and parser model: `json.loads` of
`json.dumps` is the identity. -/
theorem jsonLoads_pyDumps (v : PyVal) : jsonLoads (pyDumps v) = some v := by
  unfold jsonLoads
  have hA := (parse_dumps_all (2 * (pyDumps v).length + 1)).1 v []
    (by have := pySize_le_dumps v; omega) rfl
  rw [List.append_nil] at hA
  rw [hA]

theorem insertByDate_perm (r : MeetingRow) (l : Store) :
    (insertByDate r l).Perm (r :: l) := by
  induction l with
  | nil => simp [insertByDate]
  | cons x xs ih =>
    simp only [insertByDate]
    split
    · exact List.Perm.refl _
    · exact ((ih.cons x).trans (List.Perm.swap r x xs))

theorem sortByDateDesc_perm (l : Store) : (sortByDateDesc l).Perm l := by
  induction l with
  | nil => simp [sortByDateDesc]
  | cons x xs ih =>
    exact (insertByDate_perm x (sortByDateDesc xs)).trans (ih.cons x)

theorem mem_sortByDateDesc {r : MeetingRow} {l : Store} :
    r ∈ sortByDateDesc l ↔ r ∈ l :=
  (sortByDateDesc_perm l).mem_iff

theorem leadEq_iff {n h : Text} : leadEq n h = true ↔ ∃ t, h = n ++ t := by
  induction n generalizing h with
  | nil => simp [leadEq]
  | cons a as ih =>
    cases h with
    | nil => simp [leadEq]
    | cons b bs =>
      simp only [leadEq, Bool.and_eq_true, beq_iff_eq, ih, List.cons_append,
        List.cons.injEq]
      constructor
      · rintro ⟨rfl, t, rfl⟩; exact ⟨t, rfl, rfl⟩
      · rintro ⟨t, rfl, rfl⟩; exact ⟨rfl, t, rfl⟩

theorem containsText_iff {n h : Text} :
    containsText n h = true ↔ ∃ a b, h = a ++ n ++ b := by
  induction h with
  | nil =>
    simp only [containsText, List.isEmpty_iff]
    constructor
    · rintro rfl; exact ⟨[], [], rfl⟩
    · rintro ⟨a, b, hab⟩
      rcases List.append_eq_nil.mp (List.append_eq_nil.mp hab.symm).1 with ⟨-, h2⟩
      exact h2
  | cons c t ih =>
    simp only [containsText, Bool.or_eq_true, leadEq_iff, ih]
    constructor
    · rintro (⟨b, hb⟩ | ⟨a, b, hab⟩)
      · exact ⟨[], b, by simp [hb]⟩
      · exact ⟨c :: a, b, by simp [hab]⟩
    · rintro ⟨a, b, hab⟩
      cases a with
      | nil => exact Or.inl ⟨b, by simpa using hab⟩
      | cons a0 as =>
        right
        refine ⟨as, b, ?_⟩
        have := congrArg List.tail hab
        simpa using this

theorem likeAux_pct_any (f : Nat) : ∀ s : Text, s.length + 2 ≤ f → likeAux f ['%'] s = true := by
  induction f using Nat.strong_induction_on with
  | _ f IH =>
    intro s hs
    match f, hs with
    | f' + 1, hs =>
      cases s with
      | nil =>
        have hf' : 1 ≤ f' := by simpa using hs
        match f', hf' with
        | g + 1, _ => simp [likeAux]
      | cons c ts =>
        have hts : ts.length + 2 ≤ f' := by simpa using hs
        simp only [likeAux, reduceIte, Bool.or_eq_true]
        exact Or.inr (IH f' (Nat.lt_succ_self f') ts hts)

theorem likeAux_tail_pct (f : Nat) :
    ∀ (q s : Text), noWildcard q = true → q.length + s.length + 2 ≤ f →
      (likeAux f (q ++ ['%']) s = true ↔ leadEq (foldText q) (foldText s) = true) := by
  induction f using Nat.strong_induction_on with
  | _ f IH =>
    intro q s hq hf
    match f, hf with
    | f' + 1, hf =>
      cases q with
      | nil =>
        simp only [List.nil_append, foldText, List.map_nil, leadEq]
        rw [likeAux_pct_any (f' + 1) s (by simpa using hf)]
        simp
      | cons p ps =>
        have hp : ¬p = '%' ∧ ¬p = '_' ∧ noWildcard ps = true := by
          simp only [noWildcard, List.all_cons, Bool.and_eq_true, Bool.not_eq_true',
            beq_eq_false_iff_ne, ne_eq] at hq ⊢
          exact ⟨hq.1.1, hq.1.2, hq.2⟩
        cases s with
        | nil =>
          simp only [List.cons_append, likeAux, if_neg hp.1, foldText, List.map_cons,
            List.map_nil, leadEq]
        | cons c ts =>
          have hrec := IH f' (Nat.lt_succ_self f') ps ts hp.2.2 (by
            simp only [List.length_cons] at hf; omega)
          simp only [List.cons_append, likeAux, if_neg hp.1, if_neg hp.2.1, foldText,
            List.map_cons, leadEq, Bool.and_eq_true, foldText] at hrec ⊢
          exact and_congr Iff.rfl hrec

theorem likeAux_contains (f : Nat) :
    ∀ (q s : Text), noWildcard q = true → q.length + s.length + 3 ≤ f →
      (likeAux f ('%' :: (q ++ ['%'])) s = true ↔
        containsText (foldText q) (foldText s) = true) := by
  induction f using Nat.strong_induction_on with
  | _ f IH =>
    intro q s hq hf
    match f, hf with
    | f' + 1, hf =>
      have hlead := likeAux_tail_pct f' q s hq (by omega)
      cases s with
      | nil =>
        have hrhs : (containsText (foldText q) (foldText ([] : Text)) = true) ↔ q = [] := by
          cases q <;> simp [foldText, containsText, leadEq]
        have hle2 : (leadEq (foldText q) (foldText ([] : Text)) = true) ↔ q = [] := by
          cases q <;> simp [foldText, leadEq]
        rw [hrhs]
        simp only [likeAux, reduceIte, Bool.or_eq_true, hlead, hle2]
        simp
      | cons c ts =>
        have hrec := IH f' (Nat.lt_succ_self f') q ts hq (by
          simp only [List.length_cons] at hf; omega)
        simp only [likeAux, reduceIte, Bool.or_eq_true, hlead, hrec, foldText,
          List.map_cons, containsText]

/-- For a wildcard-free query, the LIKE pattern `'%' + query + '%'`
selects exactly the texts containing the query up to ASCII case. -/
theorem sqliteLike_contains (q s : Text) (hq : noWildcard q = true) :
    sqliteLike ('%' :: (q ++ ['%'])) s = containsText (foldText q) (foldText s) := by
  have h := likeAux_contains (('%' :: (q ++ ['%'])).length + s.length + 1) q s hq (by
    simp only [List.length_cons, List.length_append]; omega)
  unfold sqliteLike
  cases hc : containsText (foldText q) (foldText s) with
  | true => exact h.mpr hc
  | false =>
    rw [hc] at h
    cases hl : likeAux (('%' :: (q ++ ['%'])).length + s.length + 1) ('%' :: (q ++ ['%'])) s with
    | true => exact absurd (h.mp hl) (by simp)
    | false => rfl

theorem pyDumps_ne_nil (v : PyVal) : pyDumps v ≠ [] := by
  obtain ⟨c, t, hct, -⟩ := pyDumps_head v
  simp [hct]

/-- Reading back a cell written by `save_meeting_data` yields the saved
value when it was truthy and None otherwise. -/
theorem readCell_dumpCell (v : PyVal) : readCell (dumpCell v) = some (pyOrNone v) := by
  unfold dumpCell pyOrNone
  cases ht : pyTruthy v with
  | false => simp [readCell]
  | true =>
    simp only [if_pos, readCell]
    rw [if_neg (by simpa [List.isEmpty_iff] using pyDumps_ne_nil v)]
    exact jsonLoads_pyDumps v

theorem id_le_fold_max (store : Store) (r : MeetingRow) (h : r ∈ store) :
    r.id ≤ (store.map (fun x => x.id)).foldr max 0 := by
  induction store with
  | nil => cases h
  | cons x xs ih =>
    rcases List.mem_cons.mp h with rfl | hm
    · exact le_max_left _ _
    · exact le_trans (ih hm) (le_max_right _ _)

/-- The AUTOINCREMENT id of a fresh insert does not occur in the store. -/
theorem nextId_fresh (store : Store) (r : MeetingRow) (h : r ∈ store) :
    r.id ≠ nextId store := by
  have := id_le_fold_max store r h
  unfold nextId
  omega

theorem find?_append_of_none {p : MeetingRow → Bool} {l1 l2 : Store}
    (h : ∀ x ∈ l1, p x = false) :
    List.find? p (l1 ++ l2) = List.find? p l2 := by
  induction l1 with
  | nil => rfl
  | cons x xs ih =>
    simp only [List.cons_append, List.find?]
    rw [h x (by simp)]
    exact ih (fun y hy => h y (by simp [hy]))

theorem find?_filter_of_impl {p q : MeetingRow → Bool} {l : Store}
    (h : ∀ x, p x = true → q x = true) :
    List.find? p (l.filter q) = List.find? p l := by
  induction l with
  | nil => rfl
  | cons x xs ih =>
    cases hq : q x with
    | true =>
      simp only [List.filter_cons, hq, if_pos, List.find?]
      cases hp : p x with
      | true => rfl
      | false => exact ih
    | false =>
      have hp : p x = false := by
        cases hpx : p x with
        | true => exact absurd (h x hpx) (by simp [hq])
        | false => rfl
      simp only [List.filter_cons, hq, List.find?, hp]
      exact ih

theorem foldl_max_init_le (l : List Rat) (a : Rat) : a ≤ l.foldl max a := by
  induction l generalizing a with
  | nil => exact le_refl a
  | cons x xs ih => exact le_trans (le_max_left a x) (ih (max a x))

theorem le_foldl_max (l : List Rat) (x : Rat) (hx : x ∈ l) : ∀ a, x ≤ l.foldl max a := by
  induction l with
  | nil => cases hx
  | cons y ys ih =>
    intro a
    simp only [List.foldl_cons]
    rcases List.mem_cons.mp hx with rfl | hm
    · exact le_trans (le_max_right a x) (foldl_max_init_le ys (max a x))
    · exact ih hm (max a y)

theorem foldl_max_mem (l : List Rat) : ∀ a, l.foldl max a = a ∨ l.foldl max a ∈ l := by
  induction l with
  | nil => intro a; exact Or.inl rfl
  | cons x xs ih =>
    intro a
    simp only [List.foldl_cons]
    rcases ih (max a x) with h | h
    · rcases max_choice a x with hc | hc
      · exact Or.inl (by rw [h, hc])
      · exact Or.inr (by rw [h, hc]; simp)
    · exact Or.inr (by simp [h])

/-- The component maximum is attained. -/
theorem pyMax_mem (l : List Rat) (h : l ≠ []) : pyMax l ∈ l := by
  cases l with
  | nil => exact absurd rfl h
  | cons x xs =>
    simp only [pyMax]
    rcases foldl_max_mem xs x with h2 | h2
    · rw [h2]; simp
    · simp [h2]

/-- The component maximum dominates every per-term weight. -/
theorem le_pyMax (l : List Rat) (x : Rat) (hx : x ∈ l) : x ≤ pyMax l := by
  cases l with
  | nil => cases hx
  | cons y ys =>
    simp only [pyMax]
    rcases List.mem_cons.mp hx with rfl | hm
    · exact foldl_max_init_le ys x
    · exact le_foldl_max ys x hm y

/-
Claim theorems.
-/

/-- C7: the lexical sentiment label is a pure function of the polarity:
strictly above 0.1 gives "Positive", strictly below -0.1 gives "Negative",
and the closed interval [-0.1, 0.1] (boundaries included) gives
"Neutral". -/
theorem C7_sentiment_label_pure (p : Rat) :
    (sentiment_label p = txt "Positive" ↔ p > 1/10) ∧
    (sentiment_label p = txt "Negative" ↔ p < -(1/10)) ∧
    (sentiment_label p = txt "Neutral" ↔ -(1/10) ≤ p ∧ p ≤ 1/10) := by
  by_cases h1 : p > 1/10
  · simp only [sentiment_label, if_pos h1]
    refine ⟨⟨fun _ => h1, fun _ => trivial⟩, ?_, ?_⟩
    · exact ⟨fun he => absurd he (by decide), fun hc => absurd hc (by linarith)⟩
    · exact ⟨fun he => absurd he (by decide), fun hc => absurd h1 (by linarith [hc.2])⟩
  · by_cases h2 : p < -(1/10)
    · simp only [sentiment_label, if_neg h1, if_pos h2]
      refine ⟨?_, ⟨fun _ => h2, fun _ => trivial⟩, ?_⟩
      · exact ⟨fun he => absurd he (by decide), fun hc => absurd hc h1⟩
      · exact ⟨fun he => absurd he (by decide), fun hc => absurd h2 (by linarith [hc.1])⟩
    · simp only [sentiment_label, if_neg h1, if_neg h2]
      push_neg at h1 h2
      refine ⟨?_, ?_, ⟨fun _ => ⟨h2, h1⟩, fun _ => trivial⟩⟩
      · exact ⟨fun he => absurd he (by decide), fun hc => absurd hc (by linarith)⟩
      · exact ⟨fun he => absurd he (by decide), fun hc => absurd hc (by linarith)⟩

/-- C4 counterexample: with no segment data the canned result has
confidence 0.1, so it is not the zero-confidence dict the claim
states. -/
theorem C4_counterexample :
    identify_speakers (txt "hello") none ≠
      { estimated_speakers := 1, speaker_segments := [], confidence := 0 } := by
  intro h
  have hc : (1/10 : Rat) = 0 := congrArg SpeakersResult.confidence h
  norm_num at hc

/-- C4 (amended): for a transcription with missing or empty segment data,
identify_speakers returns the canned single-speaker result with empty
speaker segments and confidence 0.1. -/
theorem C4_canned_result (text : Text) (segments : Option (List PyVal))
    (h : segments = none ∨ segments = some []) :
    identify_speakers text segments =
      { estimated_speakers := 1, speaker_segments := [], confidence := 1/10 } := by
  rcases h with rfl | rfl <;> rfl

theorem C4_witness :
    identify_speakers (txt "hello") none =
      { estimated_speakers := 1, speaker_segments := [], confidence := 1/10 } :=
  C4_canned_result (txt "hello") none (Or.inl rfl)

/-- C5 counterexample: deleting an id that matches no row still returns
the success signal True. -/
theorem C5_counterexample : delete_meeting false 5 [] = (true, []) := rfl

/-- C5 (amended): delete_meeting reports failure exactly on a storage
error (leaving the store unchanged); otherwise it returns True whether or
not any row with the id existed, removing every matching row and keeping
all others. -/
theorem C5_delete_success_semantics (k : Nat) (store : Store) :
    delete_meeting true k store = (false, store) ∧
    (delete_meeting false k store).1 = true ∧
    (∀ r ∈ store, r.id ≠ k → r ∈ (delete_meeting false k store).2) ∧
    (∀ r ∈ (delete_meeting false k store).2, r ∈ store ∧ r.id ≠ k) := by
  refine ⟨rfl, rfl, ?_, ?_⟩
  · intro r hr hne
    simp [delete_meeting, List.mem_filter, hr, hne]
  · intro r hr
    simp only [delete_meeting, if_neg (by simp : ¬false = true), List.mem_filter] at hr
    exact ⟨hr.1, by simpa using hr.2⟩

theorem C5_witness :
    (⟨1, txt "a", txt "d", none, none, none, none, none, none, 0, 0⟩ : MeetingRow) ∈
      (delete_meeting false 2
        [⟨1, txt "a", txt "d", none, none, none, none, none, none, 0, 0⟩]).2 :=
  (C5_delete_success_semantics 2 _).2.2.1 _ (by simp) (by decide)

/-- C3 counterexample: when the remote sentiment call raises,
analyze_sentiment returns None, not a result carrying the lexical
score. -/
theorem C3_counterexample :
    analyze_sentiment (3/20) (1/2) RemoteOutcome.raiseE = none := rfl

/-- C3 (amended): analyze_sentiment keeps the lexical score (with an empty
model analysis) only when the remote call returns missing or empty
content; when the remote call raises, or its content does not parse as
JSON, the whole function returns None and the lexical score is lost. -/
theorem C3_remote_failure_behaviour (p s : Rat) :
    analyze_sentiment p s RemoteOutcome.raiseE = none ∧
    analyze_sentiment p s (RemoteOutcome.ok none) =
      some ⟨⟨p, s, sentiment_label p⟩, .dictV .nil⟩ ∧
    analyze_sentiment p s (RemoteOutcome.ok (some [])) =
      some ⟨⟨p, s, sentiment_label p⟩, .dictV .nil⟩ ∧
    (∀ content, content ≠ [] → jsonLoads content = none →
      analyze_sentiment p s (RemoteOutcome.ok (some content)) = none) ∧
    (∀ content v, content ≠ [] → jsonLoads content = some v →
      analyze_sentiment p s (RemoteOutcome.ok (some content)) =
        some ⟨⟨p, s, sentiment_label p⟩, v⟩) := by
  refine ⟨rfl, rfl, rfl, ?_, ?_⟩
  · intro content hne hparse
    simp [analyze_sentiment, List.isEmpty_iff, hne, hparse]
  · intro content v hne hparse
    simp [analyze_sentiment, List.isEmpty_iff, hne, hparse]

theorem C3_witness :
    analyze_sentiment 0 0 (RemoteOutcome.ok (some (txt "x"))) = none :=
  (C3_remote_failure_behaviour 0 0).2.2.2.1 (txt "x") (by decide) (by rfl)

/-- C6: when a mandatory stage fails (audio normalization, transcription
or summarization), the pipeline persists nothing — the store is returned
unchanged — and no scratch audio file remains when it returns. -/
theorem C6_abort_discards_attempt (audioOk : Bool) (tr su se : Option PyVal)
    (tp sp kg : PyVal) (fn : Text) (fs : Int) (du : Rat) (now : Text) (store : Store)
    (h : audioOk = false ∨ tr = none ∨ su = none) :
    process_meeting_file audioOk tr su se tp sp kg fn fs du now store = (store, false) := by
  rcases h with rfl | rfl | rfl
  · rfl
  · cases audioOk
    · rfl
    · rfl
  · cases audioOk
    · rfl
    · cases tr
      · rfl
      · rfl

theorem C6_witness :
    process_meeting_file false none none none PyVal.nullV PyVal.nullV PyVal.nullV
      (txt "f") 0 0 (txt "d") [] = ([], false) :=
  C6_abort_discards_attempt false none none none _ _ _ _ _ _ _ [] (Or.inl rfl)

/-- C9: after a successful delete of an id present in the store, that id
reads back as not-found, every other id reads back exactly as before, and
the remaining rows are exactly the original rows with a different id. -/
theorem C9_delete_frame (k : Nat) (store : Store) (h : ∃ r ∈ store, r.id = k) :
    (delete_meeting false k store).1 = true ∧
    get_meeting_by_id k (delete_meeting false k store).2 = none ∧
    (∀ j : Nat, j ≠ k →
      get_meeting_by_id j (delete_meeting false k store).2 = get_meeting_by_id j store) ∧
    (∀ r : MeetingRow, r ∈ (delete_meeting false k store).2 ↔ r ∈ store ∧ r.id ≠ k) := by
  have hstore2 : (delete_meeting false k store).2 = store.filter (fun r => r.id ≠ k) := rfl
  refine ⟨rfl, ?_, ?_, ?_⟩
  · rw [hstore2]
    unfold get_meeting_by_id
    have hnone : List.find? (fun r => r.id == k) (store.filter (fun r => r.id ≠ k)) = none := by
      apply List.find?_eq_none.mpr
      intro x hx
      have hxne : x.id ≠ k := by simpa using (List.mem_filter.mp hx).2
      simp [hxne]
    rw [hnone]
  · intro j hj
    rw [hstore2]
    unfold get_meeting_by_id
    rw [find?_filter_of_impl]
    intro x hx
    have hxj : x.id = j := by simpa using hx
    simp [hxj, hj]
  · intro r
    rw [hstore2]
    simp [List.mem_filter]

theorem C9_witness :
    get_meeting_by_id 1 (delete_meeting false 1
      [⟨1, txt "a", txt "d", none, none, none, none, none, none, 0, 0⟩]).2 = none :=
  (C9_delete_frame 1 _
    ⟨⟨1, txt "a", txt "d", none, none, none, none, none, none, 0, 0⟩, by simp, rfl⟩).2.1

/-- C10: a record saved with any falsy structured field (None, empty list,
empty dict, empty string, 0, False) reads back with that field as Python
None, never as the empty collection itself, while every truthy structured
field reads back identically. -/
theorem C10_save_then_read (filename : Text) (tr su se tp sp kg : PyVal)
    (fs : Int) (du : Rat) (now : Text) (store : Store) :
    get_meeting_by_id (save_meeting_data filename tr su se tp sp kg fs du now store).1
        (save_meeting_data filename tr su se tp sp kg fs du now store).2 =
      some { id := nextId store, filename := filename, upload_date := now,
             transcription := pyOrNone tr, summary := pyOrNone su,
             sentiment := pyOrNone se, topics := pyOrNone tp,
             speakers := pyOrNone sp, knowledge_graph := pyOrNone kg,
             file_size := fs, duration := du } ∧
    get_all_meetings (save_meeting_data filename tr su se tp sp kg fs du now []).2 =
      [{ id := nextId [], filename := filename, upload_date := now,
         transcription := pyOrNone tr, summary := pyOrNone su,
         sentiment := pyOrNone se, topics := pyOrNone tp,
         speakers := pyOrNone sp, knowledge_graph := pyOrNone kg,
         file_size := fs, duration := du }] ∧
    (∀ v, pyTruthy v = false → pyOrNone v = PyVal.nullV) ∧
    (∀ v, pyTruthy v = true → pyOrNone v = v) ∧
    pyOrNone (.listV .nil) = .nullV ∧ pyOrNone (.dictV .nil) = .nullV ∧
    pyOrNone (.strV []) = .nullV ∧ pyOrNone (.listV .nil) ≠ PyVal.listV .nil := by
  refine ⟨?_, ?_, ?_, ?_, rfl, rfl, rfl, by decide⟩
  · have h1 : (save_meeting_data filename tr su se tp sp kg fs du now store).1 =
        nextId store := rfl
    have h2 : (save_meeting_data filename tr su se tp sp kg fs du now store).2 =
        store ++ [⟨nextId store, filename, now, dumpCell tr, dumpCell su, dumpCell se,
          dumpCell tp, dumpCell sp, dumpCell kg, fs, du⟩] := rfl
    rw [h1, h2]
    unfold get_meeting_by_id
    rw [find?_append_of_none (fun x hx => by simp [nextId_fresh store x hx])]
    simp only [List.find?, beq_self_eq_true]
    simp only [rowToDict, readCell_dumpCell]
  · have h2 : (save_meeting_data filename tr su se tp sp kg fs du now []).2 =
        [⟨nextId [], filename, now, dumpCell tr, dumpCell su, dumpCell se,
          dumpCell tp, dumpCell sp, dumpCell kg, fs, du⟩] := rfl
    rw [h2]
    have hsort : sortByDateDesc [⟨nextId [], filename, now, dumpCell tr, dumpCell su,
        dumpCell se, dumpCell tp, dumpCell sp, dumpCell kg, fs, du⟩] =
        [⟨nextId [], filename, now, dumpCell tr, dumpCell su, dumpCell se,
          dumpCell tp, dumpCell sp, dumpCell kg, fs, du⟩] := rfl
    unfold get_all_meetings
    rw [hsort]
    simp only [List.mapM_cons, List.mapM_nil, rowToDict, readCell_dumpCell]
    rfl
  · intro v hv
    simp [pyOrNone, hv]
  · intro v hv
    simp [pyOrNone, hv]

theorem C10_witness : pyOrNone (PyVal.listV PyList.nil) = PyVal.nullV :=
  (C10_save_then_read (txt "f") .nullV .nullV .nullV .nullV .nullV .nullV 0 0
    (txt "d") []).2.2.1 (PyVal.listV PyList.nil) rfl

/-- C8: with the component count the LDA decomposition guarantees
(min(requested, 5)) and nonempty per-component weight rows, the topic
list has at most min(requested, 5) entries, every keyword list has at
most 5 entries, and each topic weight is the maximum per-term weight of
its component. -/
theorem C8_extract_topics_shape (names : List Text) (components : List (List Rat))
    (numTopics : Nat) (hlen : components.length = min numTopics 5)
    (hne : ∀ c ∈ components, c ≠ []) :
    (extract_topics names components).length ≤ min numTopics 5 ∧
    (∀ t ∈ extract_topics names components, t.keywords.length ≤ 5) ∧
    (∀ i c t, components.get? i = some c →
      (extract_topics names components).get? i = some t →
      t.weight ∈ c ∧ ∀ x ∈ c, x ≤ t.weight) := by
  refine ⟨?_, ?_, ?_⟩
  · unfold extract_topics
    simp [List.enum_length, hlen]
  · intro t ht
    unfold extract_topics at ht
    obtain ⟨p, hp, rfl⟩ := List.mem_map.mp ht
    simpa using (List.length_take_le 5 _)
  · intro i c t hc ht
    unfold extract_topics at ht
    rw [List.get?_map, List.get?_enum, hc] at ht
    simp only [Option.map_some] at ht
    have hcmem : c ∈ components := List.get?_mem hc
    obtain rfl := Option.some.inj ht.symm
    exact ⟨pyMax_mem c (hne c hcmem), fun x hx => le_pyMax c x hx⟩

theorem C8_witness :
    (extract_topics [] [[(1 : Rat)]]).length ≤ min 1 5 :=
  (C8_extract_topics_shape [] [[(1 : Rat)]] 1 rfl (by simp)).1

/-- C1 counterexample: the query "budget" selects a row whose filename is
"Budget", which contains the query only up to case, so the search result
differs from the case-sensitive selection the claim states. -/
theorem C1_counterexample :
    searchRows (txt "budget")
        [⟨1, txt "Budget", txt "d", none, none, none, none, none, none, 0, 0⟩] ≠
      List.filter (spec_case_sensitive_match (txt "budget"))
        [⟨1, txt "Budget", txt "d", none, none, none, none, none, none, 0, 0⟩] := by
  decide

/-- C1 (amended): for a query without LIKE wildcards, the search selects
exactly the rows whose filename, serialized transcript or serialized
summary contains the query as a substring up to ASCII case (SQLite LIKE
folds ASCII letters). -/
theorem C1_search_case_insensitive (query : Text) (store : Store)
    (hq : noWildcard query = true) (r : MeetingRow) :
    r ∈ searchRows query store ↔
      r ∈ store ∧
        (containsText (foldText query) (foldText r.filename) ||
          (match r.transcription with
           | none => false
           | some s => containsText (foldText query) (foldText s)) ||
          (match r.summary with
           | none => false
           | some s => containsText (foldText query) (foldText s))) = true := by
  have key : rowMatches query r =
      (containsText (foldText query) (foldText r.filename) ||
        (match r.transcription with
         | none => false
         | some s => containsText (foldText query) (foldText s)) ||
        (match r.summary with
         | none => false
         | some s => containsText (foldText query) (foldText s))) := by
    unfold rowMatches
    cases htr : r.transcription <;> cases hsu : r.summary <;>
      simp [sqliteLike_contains _ _ hq]
  unfold searchRows
  rw [mem_sortByDateDesc, List.mem_filter, key]

theorem C1_witness :
    (⟨1, txt "Budget", txt "d", none, none, none, none, none, none, 0, 0⟩ : MeetingRow) ∈
      searchRows (txt "budget")
        [⟨1, txt "Budget", txt "d", none, none, none, none, none, none, 0, 0⟩] :=
  (C1_search_case_insensitive (txt "budget") _ (by decide) _).mpr ⟨by simp, by decide⟩

/-- C2 counterexample: a stereo 44.1 kHz upload whose detected MIME type
is audio/wav is returned by normalization unchanged, so the output is
neither mono nor 16 kHz. -/
theorem C2_counterexample :
    process_audio_file true ⟨some (txt "audio/wav"), 2, 16, 44100⟩ =
        some ⟨some (txt "audio/wav"), 2, 16, 44100⟩ ∧
      (2 : Nat) ≠ 1 ∧ (44100 : Nat) ≠ 16000 := by
  refine ⟨by decide, by decide, by decide⟩

/-- C2 (amended): a successful normalization yields mono 16-bit PCM
16 kHz audio for every supported input whose detected MIME type is not
audio/wav (those are transcoded); an input already detected as audio/wav
is returned unchanged, whatever its channels, bit depth and rate. -/
theorem C2_normalization_output (convertOk : Bool) (f : AudioFile) (out : AudioFile)
    (h : process_audio_file convertOk f = some out) :
    (f.mime ≠ some (txt "audio/wav") →
      out.channels = 1 ∧ out.bitsPerSample = 16 ∧ out.sampleRate = 16000) ∧
    (f.mime = some (txt "audio/wav") → out = f) := by
  obtain ⟨fm, fch, fbits, frate⟩ := f
  cases fm with
  | none => exact absurd h (by simp [process_audio_file])
  | some m =>
    simp only [process_audio_file] at h
    by_cases hmem : m ∈ supported_types
    · rw [if_neg (by simpa using hmem)] at h
      by_cases hwav : m = txt "audio/wav"
      · subst hwav
        rw [if_neg (by decide)] at h
        cases h
        exact ⟨fun hne => absurd rfl hne, fun _ => rfl⟩
      · rw [if_pos (by simp [hwav])] at h
        simp only [convert_to_wav] at h
        cases convertOk with
        | false => simp at h
        | true =>
          rw [if_pos rfl] at h
          cases h
          refine ⟨fun _ => ⟨rfl, rfl, rfl⟩, fun hwav2 => ?_⟩
          exact absurd (Option.some.inj (by simpa using hwav2)) hwav
    · rw [if_pos (by simpa using hmem)] at h
      cases h

theorem C2_witness :
    (⟨some (txt "audio/wav"), 1, 16, 16000⟩ : AudioFile).channels = 1 ∧
      (⟨some (txt "audio/wav"), 1, 16, 16000⟩ : AudioFile).bitsPerSample = 16 ∧
      (⟨some (txt "audio/wav"), 1, 16, 16000⟩ : AudioFile).sampleRate = 16000 :=
  (C2_normalization_output true ⟨some (txt "audio/mpeg"), 2, 16, 44100⟩
    ⟨some (txt "audio/wav"), 1, 16, 16000⟩ (by decide)).1 (by decide)

end MeetingInsight
